import Mathlib

/-!
Verification development for the VisionForge core (Rust sources under
`src-tauri/src`).  Rust strings are modelled as `List Char`; machine
integers as `Nat`/`Int` with explicit `% 2^w` where overflow matters;
`serde_json` values as the inductive `Jv`; fallible functions return
`Except`/`Option`.  Each definition is a direct translation of the Rust
function of the same name.
-/

set_option maxRecDepth 4000

namespace VisionForge

/-- The Unicode `White_Space` set used by Rust `char::is_whitespace`. -/
def rustIsWhitespace (c : Char) : Bool :=
  decide (c.toNat ∈ [0x09, 0x0A, 0x0B, 0x0C, 0x0D, 0x20, 0x85, 0xA0, 0x1680,
      0x2028, 0x2029, 0x202F, 0x205F, 0x3000]) ||
  decide (0x2000 ≤ c.toNat ∧ c.toNat ≤ 0x200A)

/-- Rust `str::trim`: drop whitespace from both ends. -/
def trimChars (l : List Char) : List Char :=
  ((l.dropWhile rustIsWhitespace).reverse.dropWhile rustIsWhitespace).reverse

/-- Split a character list at every newline character (keeping empty segments). -/
def splitOnNewline : List Char → List (List Char)
  | [] => [[]]
  | c :: t =>
    if c = '\n' then [] :: splitOnNewline t
    else
      match splitOnNewline t with
      | [] => [[c]]
      | h :: r => (c :: h) :: r

/-- Drop a single trailing carriage return (the `\r` of a `\r\n` line ending). -/
def stripCRend (l : List Char) : List Char :=
  if l.getLast? = some '\r' then l.dropLast else l

/-- Rust `str::lines`: split on `\n`, strip the `\r` of `\r\n` endings, and do
not produce a final empty line when the text ends with a newline.  A trailing
`\r` of a final line that is not newline-terminated is kept, as in Rust. -/
def rustLines (text : List Char) : List (List Char) :=
  match (splitOnNewline text).reverse with
  | [] => []
  | last :: revInit =>
    let initLines := revInit.reverse.map stripCRend
    if last = [] then initLines else initLines ++ [last]

/-- Rust `char::is_ascii_digit`. -/
def isAsciiDigit (c : Char) : Bool := decide (48 ≤ c.toNat ∧ c.toNat ≤ 57)

/-- Accumulator state of `parse_numbered_list`: finished items plus the item
currently being assembled. -/
structure NLState where
  concepts : List (List Char)
  current : List Char
deriving DecidableEq, Repr

/-- The ASCII-digit prefix of a trimmed line (up to `prefix_end`). -/
def lineDigits (t : List Char) : List Char := t.takeWhile isAsciiDigit

/-- Whether a trimmed line starts a new numbered item: a non-empty digit
prefix immediately followed by `". "` or `") "`. -/
def lineIsNewItem (t : List Char) : Bool :=
  decide (lineDigits t ≠ []) &&
    (['.', ' '].isPrefixOf (t.drop (lineDigits t).length) ||
     [')', ' '].isPrefixOf (t.drop (lineDigits t).length))

/-- The item content after the digit prefix and the two delimiter characters
(`&trimmed[prefix_end + 2..]`). -/
def lineContent (t : List Char) : List Char := (t.drop (lineDigits t).length).drop 2

/-- One loop iteration of `parse_numbered_list` over a single line
(`pipeline/stages.rs`, the `for line in text.lines()` body). -/
def numberedItemStep (st : NLState) (line : List Char) : NLState :=
  let trimmed := trimChars line
  if trimmed = [] then st
  else if lineIsNewItem trimmed then
    { concepts := if st.current = [] then st.concepts
                  else st.concepts ++ [trimChars st.current]
      current := trimChars (lineContent trimmed) }
  else
    { concepts := st.concepts
      current := if st.current = [] then trimmed else st.current ++ ' ' :: trimmed }

/-- The trailing flush at the end of `parse_numbered_list`. -/
def finalizeNL (st : NLState) : List (List Char) :=
  if st.current = [] then st.concepts else st.concepts ++ [trimChars st.current]

/-- `parse_numbered_list` from `pipeline/stages.rs`: lines beginning with ASCII
digits followed by `". "` or `") "` start a new item; other non-empty lines are
folded into the current item joined by single spaces; the trailing item is
flushed. -/
def parse_numbered_list (text : List Char) : List (List Char) :=
  finalizeNL ((rustLines text).foldl numberedItemStep ⟨[], []⟩)

/-- The empty-output check of `run_ideator` (`pipeline/stages.rs`): the stage
fails (`none`) exactly when `parse_numbered_list` returns no items. -/
def run_ideator_concepts (content : List Char) : Option (List (List Char)) :=
  let concepts := parse_numbered_list content
  if concepts = [] then none else some concepts

/-! ## JSON values (`serde_json::Value`) and a parser for the fragment the
pipeline exchanges (objects, arrays, escape-simple strings, integer numbers,
booleans, null).  `serde_json` distinguishes integer numbers from floats;
`Jv.int` and `Jv.num` mirror that split, and `as_u64` succeeds only on
non-negative integers, as in serde. -/

inductive Jv where
  | null : Jv
  | bool : Bool → Jv
  | int : Int → Jv
  | num : Rat → Jv
  | str : String → Jv
  | arr : List Jv → Jv
  | obj : List (String × Jv) → Jv
deriving Repr

/-- `Value::as_array`. -/
def Jv.asArray : Jv → Option (List Jv)
  | .arr l => some l
  | _ => none

/-- `Value::get(key)` on objects (`None` on anything else). -/
def Jv.get (j : Jv) (key : String) : Option Jv :=
  match j with
  | .obj l => (l.find? (fun kv => kv.1 = key)).map (·.2)
  | _ => none

/-- `Value::as_u64`: some exactly for non-negative integer numbers below 2^64. -/
def Jv.asU64 : Jv → Option Nat
  | .int n => if 0 ≤ n ∧ n < 2 ^ 64 then some n.toNat else none
  | _ => none

/-- `Value::as_str`. -/
def Jv.asStr : Jv → Option String
  | .str s => some s
  | _ => none

/-- JSON insignificant whitespace. -/
def jsonWs (c : Char) : Bool := c = ' ' || c = '\t' || c = '\n' || c = '\r'

def skipJsonWs (l : List Char) : List Char := l.dropWhile jsonWs

/-- Single-character JSON string escapes (the `\u` form is outside the
modelled fragment).  The self-representing escapes come first; the letter
escapes map to their control characters. -/
def escChar (e : Char) : Option Char :=
  if e = '"' ∨ e = '\\' ∨ e = '/' then some e
  else if e = 'n' then some '\n'
  else if e = 't' then some '\t'
  else if e = 'r' then some '\r'
  else if e = 'b' then some (Char.ofNat 8)
  else if e = 'f' then some (Char.ofNat 12)
  else none

/-- Parse the body of a JSON string after the opening quote. -/
def parseStringBody : List Char → Option (List Char × List Char)
  | [] => none
  | '"' :: rest => some ([], rest)
  | '\\' :: e :: rest =>
    match escChar e with
    | some c => (parseStringBody rest).map (fun p => (c :: p.1, p.2))
    | none => none
  | c :: rest => (parseStringBody rest).map (fun p => (c :: p.1, p.2))

def digitsToNat (l : List Char) : Nat := l.foldl (fun a c => a * 10 + (c.toNat - 48)) 0

/-- Parse a JSON integer literal (float literals are outside the fragment). -/
def parseIntLit (l : List Char) : Option (Int × List Char) :=
  let neg := l.head? = some '-'
  let body := if neg then l.drop 1 else l
  let digits := body.takeWhile isAsciiDigit
  let rest := body.drop digits.length
  if digits = [] then none
  else if rest.head? = some '.' ∨ rest.head? = some 'e' ∨ rest.head? = some 'E' then
    none
  else
    let n : Int := digitsToNat digits
    some (if neg then -n else n, rest)

/-- Insert a key into an object body, overwriting a previous binding as
`serde_json` does for duplicate keys. -/
def insertKV (l : List (String × Jv)) (k : String) (v : Jv) : List (String × Jv) :=
  if l.any (fun kv => kv.1 = k) then
    l.map (fun kv => if kv.1 = k then (k, v) else kv)
  else l ++ [(k, v)]

mutual

/-- Fuel-indexed recursive-descent parser for one JSON value. -/
def parseJv : Nat → List Char → Option (Jv × List Char)
  | 0, _ => none
  | fuel + 1, l =>
    match skipJsonWs l with
    | '{' :: rest => parseObjBody fuel (skipJsonWs rest) []
    | '[' :: rest => parseArrBody fuel (skipJsonWs rest) []
    | '"' :: rest => (parseStringBody rest).map (fun p => (.str ⟨p.1⟩, p.2))
    | 't' :: 'r' :: 'u' :: 'e' :: rest => some (.bool true, rest)
    | 'f' :: 'a' :: 'l' :: 's' :: 'e' :: rest => some (.bool false, rest)
    | 'n' :: 'u' :: 'l' :: 'l' :: rest => some (.null, rest)
    | other => (parseIntLit other).map (fun p => (.int p.1, p.2))

/-- Parse object members after `{` (leading whitespace already skipped). -/
def parseObjBody : Nat → List Char → List (String × Jv) → Option (Jv × List Char)
  | 0, _, _ => none
  | _ + 1, '}' :: rest, acc => some (.obj acc, rest)
  | fuel + 1, '"' :: rest, acc =>
    match parseStringBody rest with
    | none => none
    | some (k, afterKey) =>
      match skipJsonWs afterKey with
      | ':' :: afterColon =>
        match parseJv fuel afterColon with
        | none => none
        | some (v, afterVal) =>
          let acc := insertKV acc ⟨k⟩ v
          match skipJsonWs afterVal with
          | ',' :: afterComma => parseObjBody fuel (skipJsonWs afterComma) acc
          | '}' :: rest2 => some (.obj acc, rest2)
          | _ => none
      | _ => none
  | _ + 1, _, _ => none

/-- Parse array elements after `[` (leading whitespace already skipped). -/
def parseArrBody : Nat → List Char → List Jv → Option (Jv × List Char)
  | 0, _, _ => none
  | _ + 1, ']' :: rest, acc => some (.arr acc, rest)
  | fuel + 1, l, acc =>
    match parseJv fuel l with
    | none => none
    | some (v, afterVal) =>
      match skipJsonWs afterVal with
      | ',' :: afterComma => parseArrBody fuel (skipJsonWs afterComma) (acc ++ [v])
      | ']' :: rest2 => some (.arr (acc ++ [v]), rest2)
      | _ => none

end

/-- `serde_json::from_str::<Value>` on the modelled fragment: exactly one JSON
value, surrounded only by whitespace. -/
def json_from_chars (l : List Char) : Option Jv :=
  match parseJv (l.length + 2) l with
  | some (v, rest) => if skipJsonWs rest = [] then some v else none
  | none => none

def listFindIdx (t : List Char) (c : Char) : Option Nat := t.findIdx? (· = c)

/-- Index of the last occurrence of `c` (Rust `str::rfind`). -/
def listRFindIdx (t : List Char) (c : Char) : Option Nat :=
  match t.reverse.findIdx? (· = c) with
  | some k => some (t.length - 1 - k)
  | none => none

/-- `extract_json_from_text` from `pipeline/stages.rs`: try a whole-string
parse of the trimmed text; otherwise for the bracket pairs `('[',']')` then
`('{','}')` take the first opening and last closing index and try to parse
that slice; otherwise fail. -/
def extract_json_from_text (text : List Char) : Except String Jv :=
  match json_from_chars (trimChars text) with
  | some j => .ok j
  | none =>
    let trimmed := trimChars text
    let tryPair := fun (sc ec : Char) =>
      match listFindIdx trimmed sc, listRFindIdx trimmed ec with
      | some s, some e =>
        if s < e then json_from_chars ((trimmed.drop s).take (e - s + 1)) else none
      | _, _ => none
    match tryPair '[' ']' with
    | some j => .ok j
    | none =>
      match tryPair '{' '}' with
      | some j => .ok j
      | none => .error "Could not extract valid JSON from LLM response"

/-- One entry of the Judge ranking (`types/pipeline.rs::JudgeRanking`);
`rank`/`score` are `u32` (hence `% 2^32` after the `u64` read), and
`concept_index` is a 64-bit `usize`. -/
structure JudgeRanking where
  rank : Nat
  concept_index : Nat
  score : Nat
  reasoning : String
deriving DecidableEq, Repr

/-- Field extraction for one ranking entry (`parse_judge_rankings` loop body in
`pipeline/stages.rs`): each field defaults when missing or mistyped. -/
def judgeRankingOfItem (item : Jv) : JudgeRanking :=
  { rank := ((item.get "rank").bind Jv.asU64).getD 0 % 2 ^ 32
    concept_index := ((item.get "concept_index").bind Jv.asU64).getD 0
    score := ((item.get "score").bind Jv.asU64).getD 0 % 2 ^ 32
    reasoning := ((item.get "reasoning").bind Jv.asStr).getD "" }

/-- Stable insertion of a ranking entry before the first entry of strictly
larger-or-equal rank that must follow it. -/
def insertByRank (r : JudgeRanking) : List JudgeRanking → List JudgeRanking
  | [] => [r]
  | x :: xs => if r.rank ≤ x.rank then r :: x :: xs else x :: insertByRank r xs

/-- Stable sort by ascending rank.  Rust `sort_by_key` is a stable sort, and a
stable sort by a key is extensionally unique, so insertion sort models it. -/
def sortByRank (l : List JudgeRanking) : List JudgeRanking := l.foldr insertByRank []

/-- `parse_judge_rankings` from `pipeline/stages.rs`: JSON extraction, then the
value must be a bare JSON array; entries are read with per-field defaults and
the result is stably sorted by ascending rank (`sort_by_key`). -/
def parse_judge_rankings (text : List Char) : Except String (List JudgeRanking) :=
  match extract_json_from_text text with
  | .error e => .error e
  | .ok json =>
    match json.asArray with
    | none => .error "Judge output is not a JSON array"
    | some arr => .ok (sortByRank (arr.map judgeRankingOfItem))

/-- The post-parse processing of `run_judge` (`pipeline/stages.rs`, lines
122-137): parse the response, fail on an empty ranking list, and return the
parsed list as is.  The concept count is never consulted: no backfill pass is
applied. -/
def run_judge_rankings (content : List Char) : Except String (List JudgeRanking) :=
  match parse_judge_rankings content with
  | .error e => .error e
  | .ok rankings =>
    if rankings = [] then .error "Judge returned no rankings" else .ok rankings

/-! ## ComfyUI workflow construction (`comfyui/workflow.rs`) -/

/-- The generation settings consumed by `build_txt2img`
(`types/generation.rs::GenerationRequest`); the `f64` field `cfg_scale` is
carried as an exact rational, `seed` is `i64`. -/
structure GenerationRequest where
  positive_prompt : String
  negative_prompt : String
  checkpoint : String
  width : Nat
  height : Nat
  steps : Nat
  cfg_scale : Rat
  sampler : String
  scheduler : String
  seed : Int
  batch_size : Nat
deriving Repr

/-- `build_txt2img` from `comfyui/workflow.rs`.  The call
`rand::rng().random_range(0..i64::MAX)` is modelled by the oracle argument
`randSeed`, constrained in the theorems to the range `[0, 2^63 - 1)` that
`random_range` draws from; it is consulted only when `request.seed < 0`. -/
def build_txt2img (request : GenerationRequest) (randSeed : Int) : Jv :=
  let seed : Int := if request.seed < 0 then randSeed else request.seed
  Jv.obj [
    ("1", .obj [("class_type", .str "CheckpointLoaderSimple"),
                ("inputs", .obj [("ckpt_name", .str request.checkpoint)])]),
    ("2", .obj [("class_type", .str "EmptyLatentImage"),
                ("inputs", .obj [("width", .int request.width),
                                 ("height", .int request.height),
                                 ("batch_size", .int request.batch_size)])]),
    ("3", .obj [("class_type", .str "CLIPTextEncode"),
                ("inputs", .obj [("text", .str request.positive_prompt),
                                 ("clip", .arr [.str "1", .int 1])])]),
    ("4", .obj [("class_type", .str "CLIPTextEncode"),
                ("inputs", .obj [("text", .str request.negative_prompt),
                                 ("clip", .arr [.str "1", .int 1])])]),
    ("5", .obj [("class_type", .str "KSampler"),
                ("inputs", .obj [("seed", .int seed),
                                 ("steps", .int request.steps),
                                 ("cfg", .num request.cfg_scale),
                                 ("sampler_name", .str request.sampler),
                                 ("scheduler", .str request.scheduler),
                                 ("denoise", .num 1),
                                 ("model", .arr [.str "1", .int 0]),
                                 ("positive", .arr [.str "3", .int 0]),
                                 ("negative", .arr [.str "4", .int 0]),
                                 ("latent_image", .arr [.str "2", .int 0])])]),
    ("6", .obj [("class_type", .str "VAEDecode"),
                ("inputs", .obj [("samples", .arr [.str "5", .int 0]),
                                 ("vae", .arr [.str "1", .int 2])])]),
    ("7", .obj [("class_type", .str "SaveImage"),
                ("inputs", .obj [("filename_prefix", .str "VisionForge"),
                                 ("images", .arr [.str "6", .int 0])])])]

/-- Top-level keys of a JSON object. -/
def objKeys : Jv → List String
  | .obj l => l.map (·.1)
  | _ => []

/-- Field `field` of the `inputs` object of node `node` in a workflow graph. -/
def nodeInput (w : Jv) (node field : String) : Option Jv :=
  ((w.get node).bind (fun n => n.get "inputs")).bind (fun i => i.get field)

mutual

/-- All values stored under a key `"seed"` anywhere in a JSON tree. -/
def seedOccurrences : Jv → List Jv
  | .obj l => seedOccObj l
  | .arr l => seedOccArr l
  | _ => []

def seedOccObj : List (String × Jv) → List Jv
  | [] => []
  | (k, v) :: rest =>
    (if k = "seed" then [v] else []) ++ seedOccurrences v ++ seedOccObj rest

def seedOccArr : List Jv → List Jv
  | [] => []
  | v :: rest => seedOccurrences v ++ seedOccArr rest

end

/-! ## Queue store (`db/queue.rs`) -/

inductive JobStatus where
  | pending
  | generating
  | completed
  | failed
  | cancelled
deriving DecidableEq, Repr

/-- One row of the `queue_jobs` table: the id and status columns the cancel
query reads or writes, plus `payload` standing for every remaining column
(none of which the query touches). -/
structure JobRow where
  id : String
  status : JobStatus
  payload : String
deriving DecidableEq, Repr

/-- The SQL `UPDATE queue_jobs SET status = 'cancelled' WHERE id = ?1 AND
status = 'pending'` of `cancel_job`. -/
def sqlCancelUpdate (table : List JobRow) (id : String) : List JobRow :=
  table.map fun r =>
    if r.id = id ∧ r.status = .pending then { r with status := .cancelled } else r

/-- Number of rows the guarded update affects. -/
def cancelAffected (table : List JobRow) (id : String) : Nat :=
  (table.filter fun r => decide (r.id = id ∧ r.status = .pending)).length

/-- `cancel_job` from `db/queue.rs`: run the guarded update; if zero rows were
affected return an error (second component `false`), otherwise success. -/
def cancel_job (table : List JobRow) (id : String) : List JobRow × Bool :=
  (sqlCancelUpdate table id, decide (cancelAffected table id ≠ 0))

/-! ## Pipeline engine selection and reviewer override (`pipeline/engine.rs`
and the identical code in `pipeline/engine_streaming.rs`) -/

/-- `types/pipeline.rs::ComposerOutput`, restricted to the fields the engine
selection logic reads. -/
structure ComposerOutputM where
  input_concept_index : Nat
  input : String
  output : String
deriving DecidableEq, Repr

/-- The judge-selection step (`engine.rs` lines 123-134, `engine_streaming.rs`
lines 213-224): `top_index` is the first ranking's `concept_index` (0 when the
list is empty, never clamped), and the description falls back to
`composed[0]` when that index is out of range.  The engine only reaches this
code with `composed` non-empty, so the `headD ""` default models `composed[0]`. -/
def judgeSelect (composed : List String) (judgeOutput : List JudgeRanking) :
    String × Nat :=
  let top_index := (judgeOutput.head?.map (·.concept_index)).getD 0
  ((composed.get? top_index).getD (composed.headD ""), top_index)

/-- The composer-slot step (`engine.rs` lines 141-144, `engine_streaming.rs`
lines 230-233): when the composer ran and produced outputs, store the output at
`selected_index` min-clamped to the last index. -/
def composerSlot (composerEnabled : Bool) (outs : List ComposerOutputM)
    (selected_index : Nat) : Option ComposerOutputM :=
  if composerEnabled ∧ outs ≠ [] then
    outs.get? (min selected_index (outs.length - 1))
  else none

structure PromptPair where
  positive : String
  negative : String
deriving DecidableEq, Repr

structure PromptEngineerOutputM where
  input : String
  output : PromptPair
deriving DecidableEq, Repr

/-- `types/pipeline.rs::ReviewerOutput`, restricted to the fields the override
logic reads. -/
structure ReviewerOutputM where
  approved : Bool
  suggested_positive : Option String
  suggested_negative : Option String
deriving DecidableEq, Repr

/-- The reviewer-override step (`engine.rs` lines 184-195,
`engine_streaming.rs` lines 326-337): when a reviewer result is present and not
approved, each suggested field individually overwrites the stored
prompt-engineer output. -/
def applyReviewerOverride (pe : Option PromptEngineerOutputM)
    (reviewer : Option ReviewerOutputM) : Option PromptEngineerOutputM :=
  match reviewer with
  | none => pe
  | some r =>
    if r.approved then pe
    else
      match pe with
      | none => none
      | some p =>
        some { p with output :=
          { positive := r.suggested_positive.getD p.output.positive
            negative := r.suggested_negative.getD p.output.negative } }

/-! ## Executor progress events (`queue/executor.rs`) -/

/-- A ComfyUI progress update (`current_step`, `total_steps` are `u32`). -/
structure ProgressUpdate where
  current_step : Nat
  total_steps : Nat
deriving DecidableEq, Repr

/-- The `progress` field of the `job_progress` event (`executor.rs` lines
219-223): `current_step / total_steps` guarded by `total_steps > 0`, else
`0.0`.  The `f64` quotient of two `u32` values is modelled exactly in `ℚ`. -/
def jobProgress (u : ProgressUpdate) : Rat :=
  if u.total_steps > 0 then (u.current_step : Rat) / (u.total_steps : Rat) else 0

/-! ## Claim-side rendering for the round-trip property (spec §8.5) -/

def digitChar (n : Nat) : Char := Char.ofNat (48 + n)

def natDigitsAux : Nat → Nat → List Char
  | 0, _ => []
  | fuel + 1, n =>
    if n < 10 then [digitChar n]
    else natDigitsAux fuel (n / 10) ++ [digitChar (n % 10)]

/-- Decimal digit characters of a natural number. -/
def natToDigits (n : Nat) : List Char := natDigitsAux (n + 1) n

/-- Join lines with single newline separators. -/
def joinLines : List (List Char) → List Char
  | [] => []
  | [l] => l
  | l :: rest => l ++ '\n' :: joinLines rest

/-- Modelled from the spec: the canonical numbered rendering of a list of
items — line `i` (1-based) reads `"i. "` followed by the `i`-th item, lines
joined by single newlines.  This is the spec-side half of the round-trip
property; it has no counterpart under `src/`. -/
def render_numbered_list (xs : List (List Char)) : List Char :=
  joinLines (xs.enum.map fun p => natToDigits (p.1 + 1) ++ '.' :: ' ' :: p.2)

/-- Whether a string starts with ASCII digits followed by `". "` or `") "`
(the pattern that opens a new numbered item). -/
def startsDigitPunct (x : List Char) : Bool :=
  let d := x.takeWhile isAsciiDigit
  decide (d ≠ []) &&
    (['.', ' '].isPrefixOf (x.drop d.length) || [')', ' '].isPrefixOf (x.drop d.length))

/-- The settings of a job whose stored seed is `-1` (claim C3's failing
input), as parsed by `build_generation_request` in `queue/executor.rs`. -/
def c3Request : GenerationRequest :=
  { positive_prompt := "masterpiece, a cat", negative_prompt := "lowres",
    checkpoint := "dreamshaper_8.safetensors", width := 512, height := 768,
    steps := 25, cfg_scale := 15 / 2, sampler := "dpmpp_2m", scheduler := "karras",
    seed := -1, batch_size := 1 }

/-- A Judge response ranking only concept 0 of two composed descriptions
(claim C4's failing input). -/
def c4JudgeResponse : List Char :=
  "[\x7b\"rank\": 1, \"concept_index\": 0, \"score\": 90, \"reasoning\": \"Good\"\x7d]".toList

/-! ## Sanity evaluations of the embedded parsers -/

example :
    parse_numbered_list ("1. First concept here.".toList ++ '\n' ::
      "2. Second concept here.".toList) =
      ["First concept here.".toList, "Second concept here.".toList] := by decide

example :
    parse_numbered_list ("intro text".toList ++ '\n' :: "more".toList) =
      ["intro text more".toList] := by decide

example :
    parse_judge_rankings "[\x7b\"rank\": 2, \"concept_index\": 1, \"score\": 80, \"reasoning\": \"b\"\x7d, \x7b\"rank\": 1, \"concept_index\": 0, \"score\": 90, \"reasoning\": \"a\"\x7d]".toList =
      .ok [⟨1, 0, 90, "a"⟩, ⟨2, 1, 80, "b"⟩] := by rfl

example :
    parse_numbered_list (render_numbered_list ["cat".toList, "dog".toList]) =
      ["cat".toList, "dog".toList] := by decide

/-! ## Lemmas about trimming, line splitting, and the numbered-list parser -/

theorem all_ws_of_trimChars_eq_nil {l : List Char} (h : trimChars l = []) :
    ∀ c ∈ l, rustIsWhitespace c = true := by
  intro c hc
  unfold trimChars at h
  rw [List.reverse_eq_nil_iff, List.dropWhile_eq_nil_iff] at h
  by_contra hnc
  have hcd : c ∈ l.dropWhile rustIsWhitespace := by
    have hsplit := List.takeWhile_append_dropWhile rustIsWhitespace l
    have hmem : c ∈ l.takeWhile rustIsWhitespace ∨ c ∈ l.dropWhile rustIsWhitespace := by
      rw [← List.mem_append, hsplit]
      exact hc
    rcases hmem with h1 | h2
    · exact absurd (List.mem_takeWhile_imp h1) hnc
    · exact h2
  exact hnc (h c (List.mem_reverse.mpr hcd))

theorem trimChars_ne_nil {l : List Char} {c : Char} (hc : c ∈ l)
    (hnc : rustIsWhitespace c = false) : trimChars l ≠ [] := by
  intro h
  have hws := all_ws_of_trimChars_eq_nil h c hc
  rw [hnc] at hws
  exact Bool.false_ne_true hws

theorem head_dropWhile_false {α : Type} (p : α → Bool) :
    ∀ {l : List α} {a : α}, (l.dropWhile p).head? = some a → p a = false := by
  intro l
  induction l with
  | nil => intro a h; simp at h
  | cons x xs ih =>
    intro a h
    rw [List.dropWhile_cons] at h
    by_cases hx : p x = true
    · rw [if_pos hx] at h
      exact ih h
    · rw [if_neg hx] at h
      simp only [List.head?_cons, Option.some.injEq] at h
      rw [← h]
      exact Bool.not_eq_true _ ▸ Bool.of_not_eq_true hx

theorem getLast_trimChars_not_ws {l : List Char} {b : Char}
    (h : (trimChars l).getLast? = some b) : rustIsWhitespace b = false := by
  unfold trimChars at h
  rw [List.getLast?_reverse] at h
  exact head_dropWhile_false _ h

theorem mem_of_getLast_eq_some {α : Type} {l : List α} {b : α}
    (h : l.getLast? = some b) : b ∈ l := by
  cases l with
  | nil => simp at h
  | cons x xs =>
    rw [List.getLast?_eq_getLast _ (by simp)] at h
    rw [← Option.some.inj h]
    exact List.getLast_mem _

theorem splitOnNewline_ne_nil (t : List Char) : splitOnNewline t ≠ [] := by
  cases t with
  | nil => simp [splitOnNewline]
  | cons c t =>
    unfold splitOnNewline
    by_cases hc : c = '\n'
    · rw [if_pos hc]; simp
    · rw [if_neg hc]
      rcases h : splitOnNewline t with _ | ⟨hd, tl⟩ <;> simp

theorem exists_line_of_mem : ∀ {text : List Char} {c : Char}, c ∈ text → c ≠ '\n' →
    ∃ l ∈ splitOnNewline text, c ∈ l := by
  intro text
  induction text with
  | nil => intro c hc _; simp at hc
  | cons x t ih =>
    intro c hc hcn
    unfold splitOnNewline
    by_cases hx : x = '\n'
    · rw [if_pos hx]
      rcases List.mem_cons.mp hc with rfl | hmem
      · exact absurd hx hcn
      · obtain ⟨l, hl, hcl⟩ := ih hmem hcn
        exact ⟨l, List.mem_cons_of_mem _ hl, hcl⟩
    · rw [if_neg hx]
      rcases h : splitOnNewline t with _ | ⟨hd, tl⟩
      · exact absurd h (splitOnNewline_ne_nil t)
      · rcases List.mem_cons.mp hc with rfl | hmem
        · exact ⟨c :: hd, List.mem_cons_self _ _, List.mem_cons_self _ _⟩
        · obtain ⟨l, hl, hcl⟩ := ih hmem hcn
          rw [h] at hl
          rcases List.mem_cons.mp hl with rfl | hl2
          · exact ⟨x :: l, List.mem_cons_self _ _, List.mem_cons_of_mem _ hcl⟩
          · exact ⟨l, List.mem_cons_of_mem _ hl2, hcl⟩

theorem mem_stripCRend {l : List Char} {c : Char} (hcl : c ∈ l)
    (hcr : c ≠ '\r') : c ∈ stripCRend l := by
  unfold stripCRend
  by_cases hlast : l.getLast? = some '\r'
  · rw [if_pos hlast]
    have hne : l ≠ [] := by rintro rfl; simp at hlast
    have hgl : l.getLast hne = '\r' := by
      have he := List.getLast?_eq_getLast l hne
      rw [hlast] at he
      exact (Option.some.inj he).symm
    have hdec := List.dropLast_append_getLast hne
    rw [← hdec] at hcl
    rcases List.mem_append.mp hcl with h1 | h2
    · exact h1
    · simp only [List.mem_singleton] at h2
      rw [hgl] at h2
      exact absurd h2 hcr
  · rw [if_neg hlast]
    exact hcl

theorem exists_rustLine_of_mem {text : List Char} {c : Char} (hc : c ∈ text)
    (hws : rustIsWhitespace c = false) : ∃ l ∈ rustLines text, c ∈ l := by
  have hcn : c ≠ '\n' := by rintro rfl; exact absurd hws (by decide)
  have hcr : c ≠ '\r' := by rintro rfl; exact absurd hws (by decide)
  obtain ⟨l, hl, hcl⟩ := exists_line_of_mem hc hcn
  unfold rustLines
  rcases hrev : (splitOnNewline text).reverse with _ | ⟨last, revInit⟩
  · rw [List.reverse_eq_nil_iff] at hrev
    exact absurd hrev (splitOnNewline_ne_nil text)
  · have hdecomp : splitOnNewline text = revInit.reverse ++ [last] := by
      rw [← List.reverse_reverse (splitOnNewline text), hrev, List.reverse_cons]
    rw [hdecomp] at hl
    simp only
    rcases List.mem_append.mp hl with h1 | h2
    · have hmem : stripCRend l ∈ revInit.reverse.map stripCRend :=
        List.mem_map_of_mem _ h1
      by_cases hl0 : last = []
      · rw [if_pos hl0]
        exact ⟨stripCRend l, hmem, mem_stripCRend hcl hcr⟩
      · rw [if_neg hl0]
        exact ⟨stripCRend l, List.mem_append_left _ hmem, mem_stripCRend hcl hcr⟩
    · simp only [List.mem_singleton] at h2
      rw [← h2]
      have hlne : l ≠ [] := by rintro rfl; simp at hcl
      rw [if_neg hlne]
      exact ⟨l, List.mem_append_right _ (by simp), hcl⟩

theorem content_case_trim_ne_nil {t : List Char} {p1 : Char} {s : List Char}
    (hb : ∀ b, t.getLast? = some b → rustIsWhitespace b = false)
    (hs : [p1, ' '] ++ s = t.drop (lineDigits t).length) :
    trimChars s ≠ [] := by
  have hsplit : t.take (lineDigits t).length ++ ([p1, ' '] ++ s) = t := by
    rw [hs]
    exact List.take_append_drop _ t
  rcases hs0 : s with _ | ⟨b0, s'⟩
  · subst hs0
    have hlast : t.getLast? = some ' ' := by
      rw [← hsplit]
      have : t.take (lineDigits t).length ++ ([p1, ' '] ++ []) =
          (t.take (lineDigits t).length ++ [p1]) ++ [' '] := by
        simp
      rw [this, List.getLast?_concat]
    exact absurd (hb ' ' hlast) (by decide)
  · have hsne : s ≠ [] := by rw [hs0]; simp
    obtain ⟨b, hbs⟩ : ∃ b, s.getLast? = some b :=
      ⟨s.getLast hsne, List.getLast?_eq_getLast s hsne⟩
    have hlast : t.getLast? = some b := by
      rw [← hsplit, List.getLast?_append, List.getLast?_append, hbs]
      rfl
    have hbws := hb b hlast
    have hbmem : b ∈ s := mem_of_getLast_eq_some hbs
    rw [← hs0]
    exact trimChars_ne_nil hbmem hbws

theorem lineContent_trim_ne_nil {t : List Char}
    (hb : ∀ b, t.getLast? = some b → rustIsWhitespace b = false)
    (hni : lineIsNewItem t = true) : trimChars (lineContent t) ≠ [] := by
  unfold lineIsNewItem at hni
  rw [Bool.and_eq_true, Bool.or_eq_true] at hni
  obtain ⟨_, hpre⟩ := hni
  rcases hpre with hp | hp <;>
  · rw [List.isPrefixOf_iff_prefix] at hp
    obtain ⟨s, hs⟩ := hp
    have hcontent : lineContent t = s := by
      unfold lineContent
      rw [← hs]
      rfl
    rw [hcontent]
    exact content_case_trim_ne_nil hb hs

theorem numberedItemStep_current_ne_nil {st : NLState} {line : List Char}
    (h : trimChars line ≠ []) : (numberedItemStep st line).current ≠ [] := by
  simp only [numberedItemStep]
  rw [if_neg h]
  by_cases hni : lineIsNewItem (trimChars line) = true
  · rw [if_pos hni]
    exact lineContent_trim_ne_nil (fun b hb => getLast_trimChars_not_ws hb) hni
  · rw [if_neg hni]
    by_cases hcur : st.current = []
    · rw [if_pos hcur]
      exact h
    · rw [if_neg hcur]
      simp

theorem numberedItemStep_preserves {st : NLState} {line : List Char}
    (h : st.concepts ≠ [] ∨ st.current ≠ []) :
    (numberedItemStep st line).concepts ≠ [] ∨
      (numberedItemStep st line).current ≠ [] := by
  by_cases ht : trimChars line = []
  · have hid : numberedItemStep st line = st := by
      simp only [numberedItemStep]
      rw [if_pos ht]
    rw [hid]
    exact h
  · exact Or.inr (numberedItemStep_current_ne_nil ht)

theorem foldl_step_ne_nil (lines : List (List Char)) :
    ∀ st : NLState,
    ((∃ l ∈ lines, trimChars l ≠ []) ∨ (st.concepts ≠ [] ∨ st.current ≠ [])) →
    ((lines.foldl numberedItemStep st).concepts ≠ [] ∨
     (lines.foldl numberedItemStep st).current ≠ []) := by
  induction lines with
  | nil =>
    intro st h
    rcases h with ⟨l, hl, _⟩ | h2
    · simp at hl
    · simpa using h2
  | cons l ls ih =>
    intro st h
    rw [List.foldl_cons]
    apply ih
    rcases h with ⟨l0, hl0, htr⟩ | hst
    · rcases List.mem_cons.mp hl0 with rfl | hmem
      · exact Or.inr (Or.inr (numberedItemStep_current_ne_nil htr))
      · exact Or.inl ⟨l0, hmem, htr⟩
    · exact Or.inr (numberedItemStep_preserves hst)

/-- Claim C9: any input containing a non-whitespace character parses to a
non-empty list — text before the first numbered header (or with no headers) is
folded into one item rather than discarded — so the Ideator stage's
empty-output failure branch is reachable only for all-whitespace responses. -/
theorem parse_numbered_list_nonempty (text : List Char)
    (h : ∃ c ∈ text, rustIsWhitespace c = false) :
    parse_numbered_list text ≠ [] ∧
    ∃ cs, run_ideator_concepts text = some cs ∧ cs ≠ [] := by
  obtain ⟨c, hc, hws⟩ := h
  obtain ⟨l, hl, hcl⟩ := exists_rustLine_of_mem hc hws
  have hP := foldl_step_ne_nil (rustLines text) ⟨[], []⟩
    (Or.inl ⟨l, hl, trimChars_ne_nil hcl hws⟩)
  have hmain : parse_numbered_list text ≠ [] := by
    unfold parse_numbered_list finalizeNL
    by_cases hcur : ((rustLines text).foldl numberedItemStep ⟨[], []⟩).current = []
    · rw [if_pos hcur]
      rcases hP with h1 | h2
      · exact h1
      · exact absurd hcur h2
    · rw [if_neg hcur]
      simp
  refine ⟨hmain, parse_numbered_list text, ?_, hmain⟩
  simp only [run_ideator_concepts]
  rw [if_neg hmain]

/-- Claim C9 witness: a plain one-word response with no numbered header. -/
theorem parse_numbered_list_nonempty_witness :
    (∃ c ∈ "hello".toList, rustIsWhitespace c = false) ∧
    (parse_numbered_list "hello".toList ≠ [] ∧
     ∃ cs, run_ideator_concepts "hello".toList = some cs ∧ cs ≠ []) :=
  ⟨by decide, parse_numbered_list_nonempty "hello".toList (by decide)⟩

/-! ## Claims about the queue store -/

/-- Claim C7: `cancel_job` is an atomic guarded update.  It succeeds exactly
when a row with the given id exists with status Pending; on failure the table
is untouched; row count is preserved; every row is either rewritten from
Pending to Cancelled (when it matches the id) or left exactly as it was, so a
row cancelled by this operation always had prior status Pending. -/
theorem cancel_job_guarded (table : List JobRow) (id : String) :
    ((cancel_job table id).2 = true ↔ ∃ r ∈ table, r.id = id ∧ r.status = .pending) ∧
    ((cancel_job table id).2 = false → (cancel_job table id).1 = table) ∧
    (cancel_job table id).1.length = table.length ∧
    (∀ (i : Nat) (r : JobRow), table[i]? = some r →
      (cancel_job table id).1[i]? =
        some (if r.id = id ∧ r.status = .pending then { r with status := .cancelled } else r)) := by
  refine ⟨?_, ?_, ?_, ?_⟩
  · simp only [cancel_job, decide_eq_true_eq, cancelAffected, Ne,
      List.length_eq_zero, List.filter_eq_nil_iff]
    push_neg
    simp
  · intro h2
    have h0 : ∀ r ∈ table, ¬(r.id = id ∧ r.status = .pending) := by
      simp only [cancel_job, decide_eq_true_eq, cancelAffected, Ne,
        List.length_eq_zero, List.filter_eq_nil_iff] at h2
      simpa using h2
    show sqlCancelUpdate table id = table
    unfold sqlCancelUpdate
    conv_rhs => rw [← List.map_id table]
    exact List.map_congr_left fun a ha => by simp [h0 a ha]
  · simp [cancel_job, sqlCancelUpdate]
  · intro i r hir
    show (sqlCancelUpdate table id)[i]? = _
    unfold sqlCancelUpdate
    rw [List.getElem?_map, hir]
    rfl

/-- Claim C7 witness: concrete table with a pending and a generating row. -/
theorem cancel_job_guarded_witness :
    ((cancel_job [⟨"a", .pending, "x"⟩, ⟨"b", .generating, "y"⟩] "a").2 = true ↔
      ∃ r ∈ [(⟨"a", .pending, "x"⟩ : JobRow), ⟨"b", .generating, "y"⟩],
        r.id = "a" ∧ r.status = .pending) ∧
    (((cancel_job [⟨"a", .pending, "x"⟩, ⟨"b", .generating, "y"⟩] "a").2 = false →
      (cancel_job [⟨"a", .pending, "x"⟩, ⟨"b", .generating, "y"⟩] "a").1 =
        [⟨"a", .pending, "x"⟩, ⟨"b", .generating, "y"⟩])) ∧
    (cancel_job [⟨"a", .pending, "x"⟩, ⟨"b", .generating, "y"⟩] "a").1.length =
      ([(⟨"a", .pending, "x"⟩ : JobRow), ⟨"b", .generating, "y"⟩]).length ∧
    (∀ (i : Nat) (r : JobRow), ([(⟨"a", .pending, "x"⟩ : JobRow), ⟨"b", .generating, "y"⟩])[i]? = some r →
      (cancel_job [⟨"a", .pending, "x"⟩, ⟨"b", .generating, "y"⟩] "a").1[i]? =
        some (if r.id = "a" ∧ r.status = .pending then { r with status := .cancelled } else r)) :=
  cancel_job_guarded [⟨"a", .pending, "x"⟩, ⟨"b", .generating, "y"⟩] "a"

/-! ## Claims about the executor -/

/-- Claim C10: the `job_progress` event's progress field divides only under the
guard `total_steps > 0`, is `0` when `total_steps = 0`, and lies in `[0, 1]`
whenever `current_step ≤ total_steps`. -/
theorem job_progress_guarded (u : ProgressUpdate) :
    (u.total_steps = 0 → jobProgress u = 0) ∧
    (u.current_step ≤ u.total_steps → 0 ≤ jobProgress u ∧ jobProgress u ≤ 1) := by
  constructor
  · intro h; simp [jobProgress, h]
  · intro h
    unfold jobProgress
    by_cases ht : u.total_steps > 0
    · rw [if_pos ht]
      have htq : (0 : Rat) < u.total_steps := by exact_mod_cast ht
      refine ⟨div_nonneg (by positivity) (le_of_lt htq), ?_⟩
      rw [div_le_one htq]
      exact_mod_cast h
    · rw [if_neg ht]
      constructor <;> norm_num

/-- Claim C10 witness: a mid-generation progress update. -/
theorem job_progress_guarded_witness :
    ((5 : Nat) ≤ 20) ∧ (0 ≤ jobProgress ⟨5, 20⟩ ∧ jobProgress ⟨5, 20⟩ ≤ 1) :=
  ⟨by decide, (job_progress_guarded ⟨5, 20⟩).2 (by decide)⟩

/-! ## Claims about the pipeline engine -/

/-- Claim C6: when the Reviewer ran and was not approved, the stored
Prompt-Engineer output's positive field becomes the suggested positive when one
is present and is otherwise unchanged, independently likewise for the negative
field; when approved, the output is untouched. -/
theorem reviewer_override_fields (p q : PromptEngineerOutputM) (r : ReviewerOutputM)
    (hq : applyReviewerOverride (some p) (some r) = some q) :
    (r.approved = false →
      (∀ s, r.suggested_positive = some s → q.output.positive = s) ∧
      (r.suggested_positive = none → q.output.positive = p.output.positive) ∧
      (∀ s, r.suggested_negative = some s → q.output.negative = s) ∧
      (r.suggested_negative = none → q.output.negative = p.output.negative)) ∧
    (r.approved = true → q = p) := by
  have hq2 : (if r.approved = true then some p
      else some { p with output :=
        { positive := r.suggested_positive.getD p.output.positive
          negative := r.suggested_negative.getD p.output.negative } }) = some q := hq
  constructor
  · intro ha
    rw [ha] at hq2
    simp only [Bool.false_eq_true, if_false, Option.some.injEq] at hq2
    subst hq2
    exact ⟨fun s hs => by simp [hs], fun hs => by simp [hs],
           fun s hs => by simp [hs], fun hs => by simp [hs]⟩
  · intro ha
    rw [ha] at hq2
    simp only [if_true, Option.some.injEq] at hq2
    exact hq2.symm

/-- Claim C6 witness: reviewer rejects with a suggested positive only. -/
theorem reviewer_override_fields_witness :
    ((false = false →
      (∀ s, some "P2" = some s →
        (PromptEngineerOutputM.output ⟨"d", ⟨"P2", "Y"⟩⟩).positive = s) ∧
      ((some "P2" : Option String) = none →
        (PromptEngineerOutputM.output ⟨"d", ⟨"P2", "Y"⟩⟩).positive =
          (PromptEngineerOutputM.output ⟨"d", ⟨"X", "Y"⟩⟩).positive) ∧
      (∀ s, (none : Option String) = some s →
        (PromptEngineerOutputM.output ⟨"d", ⟨"P2", "Y"⟩⟩).negative = s) ∧
      ((none : Option String) = none →
        (PromptEngineerOutputM.output ⟨"d", ⟨"P2", "Y"⟩⟩).negative =
          (PromptEngineerOutputM.output ⟨"d", ⟨"X", "Y"⟩⟩).negative)) ∧
    (false = true → (⟨"d", ⟨"P2", "Y"⟩⟩ : PromptEngineerOutputM) = ⟨"d", ⟨"X", "Y"⟩⟩)) :=
  reviewer_override_fields ⟨"d", ⟨"X", "Y"⟩⟩ ⟨"d", ⟨"P2", "Y"⟩⟩
    ⟨false, some "P2", none⟩ (by rfl)

/-- Claim C5 counterexample: with two composed descriptions and a first ranking
whose `concept_index` is the out-of-range 5, the description selected for the
Prompt-Engineer stage is `composed[0] = "A"`, while the stored composer record
is the min-clamped index-1 output `"B"`; the claim asserts both equal the
output for index `min 5 1 = 1`. -/
theorem judge_selection_counterexample :
    (judgeSelect ["A", "B"] [⟨1, 5, 90, ""⟩]).1 = "A" ∧
    composerSlot true [⟨0, "a", "A"⟩, ⟨1, "b", "B"⟩]
        (judgeSelect ["A", "B"] [⟨1, 5, 90, ""⟩]).2 = some ⟨1, "b", "B"⟩ ∧
    ("A" : String) ≠ "B" := by decide

/-- Claim C5 (amended): the engine keeps the first ranking's `concept_index`
un-clamped as `selected_index`.  When it is in range, both the description fed
to the Prompt-Engineer stage and the stored composer record come from that
index; when it is out of range, the stored composer record is clamped to the
last composer output while the description falls back to `composed[0]`. -/
theorem judge_selection_amended (outs : List ComposerOutputM)
    (rk : JudgeRanking) (rest : List JudgeRanking) (houts : outs ≠ []) :
    (judgeSelect (outs.map (·.output)) (rk :: rest)).2 = rk.concept_index ∧
    (rk.concept_index < outs.length →
      some (judgeSelect (outs.map (·.output)) (rk :: rest)).1 =
        (outs[rk.concept_index]?).map (·.output) ∧
      composerSlot true outs rk.concept_index = outs[rk.concept_index]?) ∧
    (outs.length ≤ rk.concept_index →
      some (judgeSelect (outs.map (·.output)) (rk :: rest)).1 =
        (outs[0]?).map (·.output) ∧
      composerSlot true outs rk.concept_index = outs[outs.length - 1]?) := by
  have hl : 0 < outs.length := List.length_pos.mpr houts
  refine ⟨rfl, ?_, ?_⟩
  · intro hlt
    have e1 : (outs.map (fun x => x.output))[rk.concept_index]? =
        some (outs[rk.concept_index].output) := by
      rw [List.getElem?_map, List.getElem?_eq_getElem hlt]
      rfl
    constructor
    · show some (((outs.map (·.output)).get? rk.concept_index).getD
        ((outs.map (·.output)).headD "")) = _
      rw [List.get?_eq_getElem?, e1, Option.getD_some,
        List.getElem?_eq_getElem hlt]
      rfl
    · unfold composerSlot
      rw [if_pos ⟨rfl, houts⟩, List.get?_eq_getElem?]
      congr 1
      omega
  · intro hge
    have e0 : (outs.map (fun x => x.output))[rk.concept_index]? = none := by
      rw [List.getElem?_map, List.getElem?_eq_none (by simpa using hge)]
      rfl
    obtain ⟨hd, tl, rfl⟩ := List.exists_cons_of_ne_nil houts
    constructor
    · show some ((((hd :: tl).map (·.output)).get? rk.concept_index).getD
        (((hd :: tl).map (·.output)).headD "")) = _
      rw [List.get?_eq_getElem?, e0]
      simp [List.headD]
    · unfold composerSlot
      rw [if_pos ⟨rfl, by simp⟩, List.get?_eq_getElem?]
      congr 1
      simp only [List.length_cons] at hge ⊢
      omega

/-- Claim C5 witness: in-range selection at index 1 of two composer outputs. -/
theorem judge_selection_amended_witness :
    ((judgeSelect (([⟨0, "a", "A"⟩, ⟨1, "b", "B"⟩] : List ComposerOutputM).map (·.output))
        [⟨1, 1, 90, ""⟩]).2 = 1) ∧
    (some (judgeSelect (([⟨0, "a", "A"⟩, ⟨1, "b", "B"⟩] : List ComposerOutputM).map (·.output))
        [⟨1, 1, 90, ""⟩]).1 =
      (([⟨0, "a", "A"⟩, ⟨1, "b", "B"⟩] : List ComposerOutputM)[1]?).map (·.output) ∧
      composerSlot true [⟨0, "a", "A"⟩, ⟨1, "b", "B"⟩] 1 =
        ([⟨0, "a", "A"⟩, ⟨1, "b", "B"⟩] : List ComposerOutputM)[1]?) :=
  ⟨(judge_selection_amended [⟨0, "a", "A"⟩, ⟨1, "b", "B"⟩] ⟨1, 1, 90, ""⟩ [] (by decide)).1,
   (judge_selection_amended [⟨0, "a", "A"⟩, ⟨1, "b", "B"⟩] ⟨1, 1, 90, ""⟩ [] (by decide)).2.1
     (by decide)⟩

/-! ## Claims about the workflow builder -/

/-- Claim C2: `build_txt2img` emits exactly the node ids `"1"`-`"7"` with the
specified wiring; a non-negative request seed is emitted verbatim, and for a
negative request seed the drawn value (in `[0, 2^63 - 1) ⊂ [0, 2^63)`) is the
single seed occurring anywhere in the graph. -/
theorem build_txt2img_spec (req : GenerationRequest) (r : Int)
    (hr0 : 0 ≤ r) (hr1 : r < 2 ^ 63 - 1) :
    objKeys (build_txt2img req r) = ["1", "2", "3", "4", "5", "6", "7"] ∧
    nodeInput (build_txt2img req r) "5" "seed" =
      some (.int (if req.seed < 0 then r else req.seed)) ∧
    nodeInput (build_txt2img req r) "5" "model" = some (.arr [.str "1", .int 0]) ∧
    nodeInput (build_txt2img req r) "5" "positive" = some (.arr [.str "3", .int 0]) ∧
    nodeInput (build_txt2img req r) "5" "negative" = some (.arr [.str "4", .int 0]) ∧
    nodeInput (build_txt2img req r) "5" "latent_image" = some (.arr [.str "2", .int 0]) ∧
    nodeInput (build_txt2img req r) "5" "denoise" = some (.num 1) ∧
    nodeInput (build_txt2img req r) "6" "samples" = some (.arr [.str "5", .int 0]) ∧
    nodeInput (build_txt2img req r) "6" "vae" = some (.arr [.str "1", .int 2]) ∧
    nodeInput (build_txt2img req r) "7" "images" = some (.arr [.str "6", .int 0]) ∧
    nodeInput (build_txt2img req r) "7" "filename_prefix" = some (.str "VisionForge") ∧
    (0 ≤ req.seed → seedOccurrences (build_txt2img req r) = [.int req.seed]) ∧
    (req.seed < 0 →
      seedOccurrences (build_txt2img req r) = [.int r] ∧ 0 ≤ r ∧ r < 2 ^ 63) := by
  have base : seedOccurrences (build_txt2img req r) =
      [.int (if req.seed < 0 then r else req.seed)] := rfl
  refine ⟨rfl, rfl, rfl, rfl, rfl, rfl, rfl, rfl, rfl, rfl, rfl, ?_, ?_⟩
  · intro h
    rw [base, if_neg (by omega)]
  · intro h
    refine ⟨by rw [base, if_pos h], hr0, by norm_num at hr1 ⊢; omega⟩

/-- Claim C2 witness: a request with negative seed and drawn value 42. -/
theorem build_txt2img_spec_witness :
    objKeys (build_txt2img
      ⟨"pos", "neg", "ck.safetensors", 512, 768, 25, 15/2, "dpmpp_2m", "karras", -1, 1⟩ 42) =
      ["1", "2", "3", "4", "5", "6", "7"] ∧
    seedOccurrences (build_txt2img
      ⟨"pos", "neg", "ck.safetensors", 512, 768, 25, 15/2, "dpmpp_2m", "karras", -1, 1⟩ 42) =
      [.int 42] ∧ (0 : Int) ≤ 42 ∧ (42 : Int) < 2 ^ 63 :=
  ⟨(build_txt2img_spec _ 42 (by norm_num) (by norm_num)).1,
   (build_txt2img_spec
      ⟨"pos", "neg", "ck.safetensors", 512, 768, 25, 15/2, "dpmpp_2m", "karras", -1, 1⟩ 42
      (by norm_num) (by norm_num)).2.2.2.2.2.2.2.2.2.2.2.2 (by norm_num)⟩

/-- Claim C3 evaluation at the failing input: for a request with seed `-1` the
resolved random value (here 42) is substituted into node "5" of the graph, and
the graph is the only thing `build_txt2img` returns — the resolved seed exists
nowhere outside it, so the caller in `queue/executor.rs` (which destructures a
`(workflow, seed)` pair and persists the seed) cannot obtain it. -/
theorem build_txt2img_resolved_seed_only_in_graph :
    nodeInput (build_txt2img c3Request 42) "5" "seed" = some (.int 42) ∧
    seedOccurrences (build_txt2img c3Request 42) = [.int 42] := ⟨rfl, rfl⟩

/-! ## Claims about the Judge parser and stage -/

/-- Claim C1 evaluation at the failing inputs: `parse_judge_rankings` rejects a
single JSON object and an object wrapping the array under `ranked_concepts`
(both taken from `pipeline/stages_test.rs`), returning the parse error instead
of a ranking list. -/
theorem parse_judge_rankings_rejects_object_shapes :
    parse_judge_rankings "\x7b\"rank\": 1, \"concept_index\": 0, \"score\": 85, \"reasoning\": \"This concept checks all the boxes for visual clarity.\"\x7d".toList =
      .error "Judge output is not a JSON array" ∧
    parse_judge_rankings "\x7b\"ranked_concepts\": [\x7b\"rank\": 1, \"concept_index\": 0, \"score\": 85, \"reasoning\": \"Best composition\"\x7d, \x7b\"rank\": 2, \"concept_index\": 1, \"score\": 75, \"reasoning\": \"Good but complex\"\x7d]\x7d".toList =
      .error "Judge output is not a JSON array" := ⟨rfl, rfl⟩

/-! ## Lemmas for the numbered-list round trip (claim C8) -/

theorem digitChar_isAsciiDigit {n : Nat} (h : n < 10) :
    isAsciiDigit (digitChar n) = true := by
  interval_cases n <;> decide

theorem natDigitsAux_all_digit :
    ∀ (fuel n : Nat), ∀ c ∈ natDigitsAux fuel n, isAsciiDigit c = true := by
  intro fuel
  induction fuel with
  | zero => intro n c hc; simp [natDigitsAux] at hc
  | succ fuel ih =>
    intro n c hc
    unfold natDigitsAux at hc
    by_cases hn : n < 10
    · rw [if_pos hn] at hc
      simp only [List.mem_singleton] at hc
      rw [hc]
      exact digitChar_isAsciiDigit hn
    · rw [if_neg hn] at hc
      rcases List.mem_append.mp hc with h1 | h2
      · exact ih _ c h1
      · simp only [List.mem_singleton] at h2
        rw [h2]
        exact digitChar_isAsciiDigit (Nat.mod_lt _ (by omega))

theorem natToDigits_all_digit (n : Nat) :
    ∀ c ∈ natToDigits n, isAsciiDigit c = true :=
  natDigitsAux_all_digit (n + 1) n

theorem natToDigits_ne_nil (n : Nat) : natToDigits n ≠ [] := by
  have he : natToDigits n = if n < 10 then [digitChar n]
      else natDigitsAux n (n / 10) ++ [digitChar (n % 10)] := rfl
  rw [he]
  by_cases hn : n < 10
  · rw [if_pos hn]; simp
  · rw [if_neg hn]; simp

theorem asciiDigit_not_ws {c : Char} (h : isAsciiDigit c = true) :
    rustIsWhitespace c = false := by
  rw [isAsciiDigit, decide_eq_true_eq] at h
  unfold rustIsWhitespace
  rw [Bool.or_eq_false_iff]
  constructor <;> rw [decide_eq_false_iff_not] <;> simp <;> omega

theorem takeWhile_append_all {α : Type} {p : α → Bool} :
    ∀ {d : List α} {a : α} {r : List α}, (∀ c ∈ d, p c = true) → p a = false →
      (d ++ a :: r).takeWhile p = d := by
  intro d
  induction d with
  | nil =>
    intro a r _ ha
    simp [List.takeWhile_cons, ha]
  | cons x xs ih =>
    intro a r hall ha
    rw [List.cons_append, List.takeWhile_cons, if_pos (hall x (by simp))]
    rw [ih (fun c hc => hall c (by simp [hc])) ha]

theorem trimChars_eq_self_of_ends {l : List Char}
    (hh : ∀ a, l.head? = some a → rustIsWhitespace a = false)
    (hl : ∀ b, l.getLast? = some b → rustIsWhitespace b = false) :
    trimChars l = l := by
  cases l with
  | nil => rfl
  | cons x xs =>
    unfold trimChars
    rw [List.dropWhile_cons, if_neg (by rw [hh x rfl]; simp)]
    rcases hr : (x :: xs).reverse with _ | ⟨y, ys⟩
    · rw [List.reverse_eq_nil_iff] at hr
      exact absurd hr (by simp)
    · have hy : rustIsWhitespace y = false := by
        apply hl
        rw [← List.head?_reverse, hr]
        rfl
      rw [List.dropWhile_cons, if_neg (by rw [hy]; simp)]
      rw [← hr, List.reverse_reverse]

theorem getLast_renderLine {d x : List Char} (hx : x ≠ []) :
    (d ++ '.' :: ' ' :: x).getLast? = x.getLast? := by
  rw [List.getLast?_append]
  have h2 : ('.' :: ' ' :: x) = ['.', ' '] ++ x := rfl
  rw [h2, List.getLast?_append]
  obtain ⟨b, hb⟩ : ∃ b, x.getLast? = some b :=
    ⟨x.getLast hx, List.getLast?_eq_getLast x hx⟩
  rw [hb]
  rfl

theorem step_renderLine (st : NLState) {d x : List Char}
    (hd : d ≠ []) (hdall : ∀ c ∈ d, isAsciiDigit c = true)
    (hx : x ≠ []) (hxt : trimChars x = x) :
    numberedItemStep st (d ++ '.' :: ' ' :: x) =
      ⟨if st.current = [] then st.concepts else st.concepts ++ [trimChars st.current],
       x⟩ := by
  have htrim : trimChars (d ++ '.' :: ' ' :: x) = d ++ '.' :: ' ' :: x := by
    apply trimChars_eq_self_of_ends
    · intro a ha
      obtain ⟨c0, d0, rfl⟩ := List.exists_cons_of_ne_nil hd
      rw [List.cons_append, List.head?_cons] at ha
      rw [← Option.some.inj ha]
      exact asciiDigit_not_ws (hdall c0 (by simp))
    · intro b hb
      rw [getLast_renderLine hx] at hb
      exact getLast_trimChars_not_ws (by rw [hxt]; exact hb)
  have hdig : lineDigits (d ++ '.' :: ' ' :: x) = d :=
    takeWhile_append_all hdall (by decide)
  have hdrop : (d ++ '.' :: ' ' :: x).drop (lineDigits (d ++ '.' :: ' ' :: x)).length =
      '.' :: ' ' :: x := by
    rw [hdig]
    exact List.drop_left d _
  have hni : lineIsNewItem (d ++ '.' :: ' ' :: x) = true := by
    unfold lineIsNewItem
    rw [hdrop, Bool.and_eq_true, Bool.or_eq_true]
    refine ⟨decide_eq_true ?_, Or.inl ?_⟩
    · rw [hdig]; exact hd
    · simp [List.isPrefixOf]
  have hcontent : lineContent (d ++ '.' :: ' ' :: x) = x := by
    unfold lineContent
    rw [hdrop]
    rfl
  simp only [numberedItemStep]
  rw [htrim, if_neg (by simp [hd]), if_pos hni, hcontent, hxt]

theorem foldl_renderLines :
    ∀ (ps : List (List Char × List Char)) (acc : List (List Char)) (cur : List Char),
    (∀ p ∈ ps, (p.1 ≠ [] ∧ ∀ c ∈ p.1, isAsciiDigit c = true) ∧
               (p.2 ≠ [] ∧ trimChars p.2 = p.2)) →
    trimChars cur = cur →
    finalizeNL ((ps.map (fun p => p.1 ++ '.' :: ' ' :: p.2)).foldl
        numberedItemStep ⟨acc, cur⟩) =
      (if cur = [] then acc else acc ++ [cur]) ++ ps.map (·.2) := by
  intro ps
  induction ps with
  | nil =>
    intro acc cur _ hcur
    simp only [List.map_nil, List.foldl_nil, finalizeNL]
    by_cases hc : cur = []
    · rw [if_pos hc, if_pos hc, List.append_nil]
    · rw [if_neg hc, if_neg hc, hcur, List.append_nil]
  | cons p ps ih =>
    intro acc cur hps hcur
    simp only [List.map_cons, List.foldl_cons]
    rw [step_renderLine _ (hps p (by simp)).1.1 (hps p (by simp)).1.2
        (hps p (by simp)).2.1 (hps p (by simp)).2.2]
    rw [hcur]
    rw [ih _ _ (fun q hq => hps q (by simp [hq])) (hps p (by simp)).2.2]
    rw [if_neg (hps p (by simp)).2.1, List.append_assoc]
    rfl

theorem splitOnNewline_no_newline : ∀ {l : List Char}, '\n' ∉ l →
    splitOnNewline l = [l] := by
  intro l
  induction l with
  | nil => intro _; rfl
  | cons c t ih =>
    intro h
    have hc : c ≠ '\n' := by
      intro hcc
      subst hcc
      exact h (List.mem_cons_self _ _)
    unfold splitOnNewline
    rw [if_neg hc, ih (fun hm => h (List.mem_cons_of_mem _ hm))]

theorem splitOnNewline_cons (c : Char) (t : List Char) :
    splitOnNewline (c :: t) =
      if c = '\n' then [] :: splitOnNewline t
      else match splitOnNewline t with
        | [] => [[c]]
        | h :: r => (c :: h) :: r := rfl

theorem splitOnNewline_append : ∀ (l : List Char), '\n' ∉ l → ∀ (r : List Char),
    splitOnNewline (l ++ '\n' :: r) = l :: splitOnNewline r := by
  intro l
  induction l with
  | nil =>
    intro _ r
    simp only [List.nil_append]
    rw [splitOnNewline_cons, if_pos rfl]
  | cons c t ih =>
    intro h r
    have hc : c ≠ '\n' := by
      intro hcc
      subst hcc
      exact h (List.mem_cons_self _ _)
    simp only [List.cons_append]
    rw [splitOnNewline_cons, if_neg hc, ih (fun hm => h (List.mem_cons_of_mem _ hm)) r]

theorem splitOnNewline_joinLines : ∀ (lines : List (List Char)),
    (∀ l ∈ lines, '\n' ∉ l) → lines ≠ [] →
    splitOnNewline (joinLines lines) = lines := by
  intro lines
  induction lines with
  | nil => intro _ h; exact absurd rfl h
  | cons l rest ih =>
    intro hall _
    cases rest with
    | nil =>
      rw [show joinLines [l] = l from rfl]
      exact splitOnNewline_no_newline (hall l (by simp))
    | cons r t =>
      rw [show joinLines (l :: r :: t) = l ++ '\n' :: joinLines (r :: t) from rfl]
      rw [splitOnNewline_append l (hall l (by simp)) _]
      rw [ih (fun q hq => hall q (List.mem_cons_of_mem _ hq)) (by simp)]

theorem rustLines_joinLines (lines : List (List Char))
    (hall : ∀ l ∈ lines, '\n' ∉ l ∧ l ≠ [] ∧ stripCRend l = l) :
    rustLines (joinLines lines) = lines := by
  rcases hlines : lines with _ | ⟨l0, rest⟩
  · rfl
  · rw [← hlines]
    have hne : lines ≠ [] := by rw [hlines]; simp
    have hsp : splitOnNewline (joinLines lines) = lines :=
      splitOnNewline_joinLines lines (fun q hq => (hall q hq).1) hne
    unfold rustLines
    rw [hsp]
    rcases hrev : lines.reverse with _ | ⟨lastL, revInit⟩
    · rw [List.reverse_eq_nil_iff] at hrev
      exact absurd hrev hne
    · have hdecomp : lines = revInit.reverse ++ [lastL] := by
        rw [← List.reverse_reverse lines, hrev, List.reverse_cons]
      have hlastmem : lastL ∈ lines := by rw [hdecomp]; simp
      have hlastne : lastL ≠ [] := (hall lastL hlastmem).2.1
      simp only
      rw [if_neg hlastne]
      have hmapid : revInit.reverse.map stripCRend = revInit.reverse := by
        conv_rhs => rw [← List.map_id revInit.reverse]
        apply List.map_congr_left
        intro a ha
        have hamem : a ∈ lines := by
          rw [hdecomp]
          exact List.mem_append_left _ ha
        simpa using (hall a hamem).2.2
      rw [hmapid, ← hdecomp]

theorem mem_of_mem_enum {α : Type} {l : List α} {p : Nat × α} (h : p ∈ l.enum) :
    p.2 ∈ l := by
  rw [List.mem_enum_iff_getElem?] at h
  exact List.getElem?_mem h

/-- Claim C8: parsing the canonical numbered rendering of a list of non-empty,
single-line, trim-invariant items with no leading digit-punctuation pattern
returns exactly that list (round trip). -/
theorem parse_render_roundtrip (xs : List (List Char))
    (h : ∀ x ∈ xs, x ≠ [] ∧ trimChars x = x ∧ '\n' ∉ x ∧ startsDigitPunct x = false) :
    parse_numbered_list (render_numbered_list xs) = xs := by
  by_cases hxs : xs = []
  · subst hxs; rfl
  · have hlines : ∀ l ∈ xs.enum.map (fun p => natToDigits (p.1 + 1) ++ '.' :: ' ' :: p.2),
        '\n' ∉ l ∧ l ≠ [] ∧ stripCRend l = l := by
      intro l hl
      obtain ⟨p, hp, rfl⟩ := List.mem_map.mp hl
      have hpx : p.2 ∈ xs := mem_of_mem_enum hp
      obtain ⟨hne, htr, hnl, _⟩ := h p.2 hpx
      refine ⟨?_, by simp, ?_⟩
      · intro hmem
        rcases List.mem_append.mp hmem with h1 | h2
        · exact absurd (natToDigits_all_digit (p.1 + 1) '\n' h1) (by decide)
        · rcases List.mem_cons.mp h2 with h3 | h4
          · exact absurd h3 (by decide)
          · rcases List.mem_cons.mp h4 with h5 | h6
            · exact absurd h5 (by decide)
            · exact hnl h6
      · by_cases hcr : (natToDigits (p.1 + 1) ++ '.' :: ' ' :: p.2).getLast? = some '\r'
        · rw [getLast_renderLine hne] at hcr
          have hws := getLast_trimChars_not_ws (by rw [htr]; exact hcr)
          exact absurd hws (by decide)
        · unfold stripCRend
          rw [if_neg hcr]
    have hrust := rustLines_joinLines _ hlines
    unfold parse_numbered_list render_numbered_list
    rw [hrust]
    have hmm : xs.enum.map (fun p => natToDigits (p.1 + 1) ++ '.' :: ' ' :: p.2) =
        (xs.enum.map (fun p => (natToDigits (p.1 + 1), p.2))).map
          (fun q => q.1 ++ '.' :: ' ' :: q.2) := by
      rw [List.map_map]
      rfl
    rw [hmm]
    rw [foldl_renderLines _ [] [] ?hps rfl]
    · rw [if_pos rfl, List.nil_append, List.map_map]
      have hcomp : ((fun q : List Char × List Char => q.2) ∘
          (fun p : Nat × List Char => (natToDigits (p.1 + 1), p.2))) = Prod.snd := by
        funext p
        rfl
      rw [hcomp, List.enum_map_snd]
    case hps =>
      intro p hp
      obtain ⟨q, hq, rfl⟩ := List.mem_map.mp hp
      have hqx : q.2 ∈ xs := mem_of_mem_enum hq
      obtain ⟨hne, htr, _, _⟩ := h q.2 hqx
      exact ⟨⟨natToDigits_ne_nil _, natToDigits_all_digit _⟩, hne, htr⟩

/-- Claim C8 witness: the round trip on a concrete two-item list. -/
theorem parse_render_roundtrip_witness :
    (∀ x ∈ ["cat".toList, "dog".toList],
      x ≠ [] ∧ trimChars x = x ∧ '\n' ∉ x ∧ startsDigitPunct x = false) ∧
    parse_numbered_list (render_numbered_list ["cat".toList, "dog".toList]) =
      ["cat".toList, "dog".toList] :=
  ⟨by decide, parse_render_roundtrip _ (by decide)⟩

/-- Claim C4 evaluation at the failing input: over `n = 2` composed
descriptions, `run_judge` returns the parsed single-entry ranking as is — the
missing concept index 1 is not appended, since no backfill pass exists in
`pipeline/stages.rs` and the concept count is never consulted. -/
theorem run_judge_missing_index_not_backfilled :
    run_judge_rankings c4JudgeResponse = .ok [⟨1, 0, 90, "Good"⟩] ∧
    ¬ ∀ i < 2, ∃ rk ∈ [(⟨1, 0, 90, "Good"⟩ : JudgeRanking)], rk.concept_index = i :=
  ⟨rfl, by decide⟩

end VisionForge
